import Mathlib

/-!
# pscrypt: counter mode and Galois/counter mode file encryption

A shallow embedding of `main.go`.  The three functions of the program that do
work (`prepare`, `ctr`, `gcm`) are embedded as pure functions of the command
line (`Context`) and of what the operating system hands to the process
(`World`); a run yields the bytes written to the output file and the way the
run ended (`Run`).

The Go standard library calls that the program makes (`hex.Decode`,
`cipher.NewCTR`, `cipher.NewGCM`, slice expressions) are embedded next to it.
The AES block transformation itself is a parameter `aes` of the development:
`aes k b` is the encryption of the 128-bit block `b` (read as a big-endian
number) under the key bytes `k`.  Nothing is assumed about it.
-/

namespace Pscrypt

/-- A Go `[]byte` value or the bytes of a Go `string`. -/
abbrev Bytes := List Nat

/-- `const BLOCKSIZE_BYTE = 16` -/
def BLOCKSIZE_BYTE : Nat := 16

/-- `const BLOCKSIZE_BIT = 16 * 8` -/
def BLOCKSIZE_BIT : Nat := 16 * 8

/-! ## Go slices -/

/-- A Go slice: the backing array from the slice's first element to its
capacity, and the slice's length. -/
structure Slice where
  arr : Bytes
  len : Nat
  deriving DecidableEq, Repr

/-- `cap(s)` -/
def Slice.cap (s : Slice) : Nat := s.arr.length

/-- The elements of the slice, `s[0] .. s[len(s)-1]`. -/
def Slice.bytes (s : Slice) : Bytes := s.arr.take s.len

/-- `s[:n]`: a run-time panic (`none`) when `n` exceeds the capacity. -/
def Slice.upTo (s : Slice) (n : Nat) : Option Slice :=
  if n ≤ s.cap then some ⟨s.arr, n⟩ else none

/-- `s[n:]`: a run-time panic (`none`) when `n` exceeds the length. -/
def Slice.dropTo (s : Slice) (n : Nat) : Option Slice :=
  if n ≤ s.len then some ⟨s.arr.drop n, s.len - n⟩ else none

/-! ## Errors and results -/

/-- The error values the program can return from an action:
* `missingParameters`: "missing required parameters, see `help`";
* `openFailed`, `createFailed`: the error of `os.Open`, of `os.Create`;
* `hexInvalidByte b`, `hexLength`: `hex.InvalidByteError(b)`, `hex.ErrLength`;
* `keyLength`: "Provided key is not 128 b long";
* `aesKeySize`: `aes.KeySizeError`;
* `entropy`: the error of `rand.Read`;
* `nonceShort`: "Error gathering 128 random bytes for IV";
* `gcmOpen`: the error of `gcm.Open`, "cipher: message authentication failed". -/
inductive Err
  | missingParameters
  | openFailed
  | createFailed
  | hexInvalidByte (b : Nat)
  | hexLength
  | keyLength
  | aesKeySize
  | entropy
  | nonceShort
  | gcmOpen
  deriving DecidableEq, Repr

/-- How a run of an action ends: it returns `nil`, it returns an error, it
ends the process through `log.Fatal`/`log.Fatalf`, or it panics. -/
inductive Exit
  | ok
  | error (e : Err)
  | fatal
  | panic
  deriving DecidableEq, Repr

/-- The observable result of a run: the bytes written to the output file
(empty when the file was never written to) and how the run ended. -/
structure Run where
  written : Bytes
  exit : Exit
  deriving DecidableEq, Repr

/-! ## `encoding/hex` -/

/-- The value of a hexadecimal digit given as a byte, `none` for any other
byte. -/
def fromHexChar (c : Nat) : Option Nat :=
  if 48 ≤ c ∧ c ≤ 57 then some (c - 48)
  else if 97 ≤ c ∧ c ≤ 102 then some (c - 97 + 10)
  else if 65 ≤ c ∧ c ≤ 70 then some (c - 65 + 10)
  else none

/-- The result of `hex.Decode(dst, src)`: the buffer and the count of bytes
written, an error, or an index-out-of-range panic on a full `dst`. -/
inductive HexResult
  | done (dst : Bytes) (n : Nat)
  | fail (e : Err)
  | panic
  deriving DecidableEq, Repr

/-- The loop of `hex.Decode`: `i` bytes are written so far, the third argument
is what is left of `src`.  Two characters give one byte, stored with
`dst[i] = (a << 4) | b`, which panics once `i` reaches `len(dst)`; a character
that is no digit gives `InvalidByteError`, a single character left at the end
gives `ErrLength`. -/
def hexDecodeLoop : Bytes → Nat → Bytes → HexResult
  | dst, i, p :: q :: rest =>
    match fromHexChar p with
    | none => .fail (.hexInvalidByte p)
    | some a =>
      match fromHexChar q with
      | none => .fail (.hexInvalidByte q)
      | some b =>
        if i < dst.length then hexDecodeLoop (dst.set i ((a <<< 4) ||| b)) (i + 1) rest
        else .panic
  | _, _, [p] =>
    match fromHexChar p with
    | none => .fail (.hexInvalidByte p)
    | some _ => .fail .hexLength
  | dst, i, [] => .done dst i

/-- `hex.Decode(dst, src)` -/
def hexDecode (dst src : Bytes) : HexResult := hexDecodeLoop dst 0 src

/-- The digit of `hex.EncodeToString` for a value below 16, from the table
`0123456789abcdef`. -/
def hexDigit (d : Nat) : Nat := if d < 10 then 48 + d else 87 + d

/-- `hex.EncodeToString(bs)` as bytes: two digits per byte. -/
def hexEncode : Bytes → Bytes
  | [] => []
  | b :: bs => hexDigit (b >>> 4) :: hexDigit (b &&& 0x0f) :: hexEncode bs

/-! ## `crypto/cipher`: counter mode -/

/-- The big-endian number a run of bytes spells. -/
def beNat (bs : Bytes) : Nat := bs.foldl (fun acc b => acc * 256 + b) 0

/-- The 16 bytes of a 128-bit block, most significant first. -/
def blockBytes (x : Nat) : Bytes := (List.range 16).map fun j => x / 256 ^ (15 - j) % 256

/-- The counter of `cipher.NewCTR` steps as a 128-bit big-endian number. -/
def ctrIncrement (c : Nat) : Nat := (c + 1) % 2 ^ 128

/-- The key stream of `n` blocks from counter block `c`: each block is the
encryption `E` of the counter, and `inc` steps the counter. -/
def keyStream (E : Nat → Nat) (inc : Nat → Nat) : Nat → Nat → Bytes
  | 0, _ => []
  | n + 1, c => blockBytes (E c) ++ keyStream E inc n (inc c)

/-- The bytes of `src` combined with the key stream that starts at counter
block `c`. -/
def xorStream (E : Nat → Nat) (inc : Nat → Nat) (c : Nat) (src : Bytes) : Bytes :=
  List.zipWith (· ^^^ ·) src (keyStream E inc ((src.length + 15) / 16) c)

/-- `cipher.NewCTR(block, iv).XORKeyStream(dst, src)` with `len(dst) = len(src)`:
the bytes left in `dst`. -/
def xorKeyStream (E : Nat → Nat) (iv src : Bytes) : Bytes :=
  xorStream E ctrIncrement (beNat iv) src

/-! ## `crypto/cipher`: Galois/counter mode -/

/-- `gcm.NonceSize()` of `cipher.NewGCM` -/
def gcmNonceSize : Nat := 12

/-- `gcm.Overhead()` of `cipher.NewGCM`, the length of the tag -/
def gcmTagSize : Nat := 16

/-- The longest plaintext `Seal` accepts, `((1<<32)-2) * BlockSize` bytes. -/
def gcmMaxPlaintext : Nat := (2 ^ 32 - 2) * 16

/-- One round of the multiplication in GF(2^128): `p = (z, v)`, bit `i` of `x`
counted from the most significant end. -/
def gfMulStep (x : Nat) (p : Nat × Nat) (i : Nat) : Nat × Nat :=
  (if x.testBit (127 - i) then p.1 ^^^ p.2 else p.1,
   if p.2.testBit 0 then (p.2 >>> 1) ^^^ (0xE1 <<< 120) else p.2 >>> 1)

/-- Multiplication in GF(2^128) on blocks in the bit order of the mode. -/
def gfMul (x y : Nat) : Nat := ((List.range 128).foldl (gfMulStep x) (0, y)).1

/-- The first `n` 16-byte blocks of `bs` as numbers, the last one padded with
zero bytes. -/
def blocksOf : Nat → Bytes → List Nat
  | 0, _ => []
  | n + 1, bs =>
    beNat (bs.take 16 ++ List.replicate (16 - (bs.take 16).length) 0) :: blocksOf n (bs.drop 16)

/-- All blocks of `bs`. -/
def gcmBlocks (bs : Bytes) : List Nat := blocksOf ((bs.length + 15) / 16) bs

/-- The hash absorbs a run of blocks. -/
def ghashUpdate (H y : Nat) (blocks : List Nat) : Nat :=
  blocks.foldl (fun acc x => gfMul (acc ^^^ x) H) y

/-- GHASH under hash key `H` of the additional data and the ciphertext. -/
def ghash (H : Nat) (data ct : Bytes) : Nat :=
  let y := ghashUpdate H (ghashUpdate H 0 (gcmBlocks data)) (gcmBlocks ct)
  gfMul (y ^^^ ((data.length * 8 % 2 ^ 64) * 2 ^ 64 + ct.length * 8 % 2 ^ 64)) H

/-- `gcmInc32`: the last four bytes of the counter block step as a 32-bit
big-endian number. -/
def gcmInc32 (c : Nat) : Nat := c / 2 ^ 32 * 2 ^ 32 + (c % 2 ^ 32 + 1) % 2 ^ 32

/-- `deriveCounter` for a nonce of the standard size: `nonce || 0 0 0 1`. -/
def gcmDeriveCounter (nonce : Bytes) : Nat := beNat nonce * 2 ^ 32 + 1

/-- `counterCrypt` -/
def gcmCounterCrypt (E : Nat → Nat) (counter : Nat) (src : Bytes) : Bytes :=
  xorStream E gcmInc32 counter src

/-- `auth`: the tag of a ciphertext, the hash masked with `tagMask`. -/
def gcmAuth (E : Nat → Nat) (ct data : Bytes) (tagMask : Nat) : Bytes :=
  blockBytes (ghash (E 0 % 2 ^ 128) data ct ^^^ tagMask)

/-- `gcm.Seal(dst[:0], nonce, plaintext, data)`: ciphertext followed by the
tag, or a panic (`none`) on a nonce of the wrong length ("incorrect nonce
length given to GCM") or on a plaintext of more than `((1<<32)-2) * BlockSize`
bytes ("message too large for GCM"). -/
def gcmSeal (E : Nat → Nat) (nonce plaintext data : Bytes) : Option Bytes :=
  if nonce.length ≠ gcmNonceSize then none
  else if plaintext.length > gcmMaxPlaintext then none
  else
    let counter := gcmDeriveCounter nonce
    let out := gcmCounterCrypt E (gcmInc32 counter) plaintext
    some (out ++ gcmAuth E out data (E counter))

/-- What `gcm.Open` returns. -/
inductive OpenResult
  | plain (p : Bytes)
  | errOpen
  | panic
  deriving DecidableEq, Repr

/-- `gcm.Open(dst[:0], nonce, ciphertext, data)`: a panic on a nonce of the
wrong length; its one error on a ciphertext shorter than the tag, on one longer
than the limit plus the tag, and on a tag that differs from the expected one;
the plaintext otherwise. -/
def gcmOpen (E : Nat → Nat) (nonce ciphertext data : Bytes) : OpenResult :=
  if nonce.length ≠ gcmNonceSize then .panic
  else if ciphertext.length < gcmTagSize then .errOpen
  else if ciphertext.length > gcmMaxPlaintext + gcmTagSize then .errOpen
  else
    let tag := ciphertext.drop (ciphertext.length - gcmTagSize)
    let ct := ciphertext.take (ciphertext.length - gcmTagSize)
    let counter := gcmDeriveCounter nonce
    let expectedTag := gcmAuth E ct data (E counter)
    if expectedTag ≠ tag then .errOpen
    else .plain (gcmCounterCrypt E (gcmInc32 counter) ct)

/-! ## The program -/

/-- The command line as the actions read it: `ctx.String`, `ctx.Bool` and
`ctx.Command.Name`.  `key` and `iv` are the bytes of the flag's text. -/
structure Context where
  inArg : String
  outArg : String
  key : Bytes
  iv : Bytes
  implicitEncrypt : Bool
  implicitDecrypt : Bool
  command : String

/-- What the process gets from outside: whether the input file opens and the
output file is created, the bytes `ioutil.ReadAll` returns and the spare
capacity behind them, and the bytes the random source can deliver. -/
structure World where
  openOk : Bool
  createOk : Bool
  input : Bytes
  spare : Bytes
  rand : Bytes

/-- `rand.Read(b)` on a zeroed `b` of length `m`: the buffer, the count of
bytes read, and whether an error is returned (exactly on a short read). -/
def randRead (w : World) (m : Nat) : Bytes × Nat × Bool :=
  let got := w.rand.take m
  (got ++ List.replicate (m - got.length) 0, got.length, decide (got.length < m))

/-- `copy(dst, src)`: the content of `dst` afterwards. -/
def copyInto (dst src : Bytes) : Bytes := src.take dst.length ++ dst.drop src.length

/-- The package variables `source` and `key` after `prepare`; `aesCipher` is
the block function under `key`. -/
structure Prepared where
  source : Slice
  key : Bytes

/-- `func prepare(ctx *cli.Context) error` -/
def prepare (ctx : Context) (w : World) : Except Exit Prepared :=
  if ctx.inArg = "" ∨ ctx.outArg = "" ∨ ctx.key = [] then .error (.error .missingParameters)
  else if !w.openOk then .error (.error .openFailed)
  else if !w.createOk then .error (.error .createFailed)
  else
    match hexDecode (List.replicate BLOCKSIZE_BYTE 0) ctx.key with
    | .panic => .error .panic
    | .fail e => .error (.error e)
    | .done key n =>
      if n ≠ BLOCKSIZE_BYTE then .error (.error .keyLength)
      else if key.length = 16 ∨ key.length = 24 ∨ key.length = 32 then
        .ok ⟨⟨w.input ++ w.spare, w.input.length⟩, key⟩
      else .error (.error .aesKeySize)

/-- `func ctr(ctx *cli.Context) error` -/
def ctr (aes : Bytes → Nat → Nat) (ctx : Context) (w : World) : Run :=
  match prepare ctx w with
  | .error e => ⟨[], e⟩
  | .ok st =>
    let iv := List.replicate BLOCKSIZE_BYTE 0
    if ctx.iv ≠ [] then
      match hexDecode iv ctx.iv with
      | .panic => ⟨[], .panic⟩
      | .fail e => ⟨[], .error e⟩
      | .done iv n =>
        if n ≠ BLOCKSIZE_BYTE then ⟨[], .fatal⟩
        else ⟨xorKeyStream (aes st.key) iv st.source.bytes, .ok⟩
    else if ctx.implicitDecrypt then
      match st.source.upTo BLOCKSIZE_BYTE with
      | none => ⟨[], .panic⟩
      | some head =>
        match st.source.dropTo BLOCKSIZE_BYTE with
        | none => ⟨[], .panic⟩
        | some source => ⟨xorKeyStream (aes st.key) (copyInto iv head.bytes) source.bytes, .ok⟩
    else if ctx.implicitEncrypt then
      match randRead w BLOCKSIZE_BYTE with
      | (iv, n, err) =>
        if err then ⟨[], .error .entropy⟩
        else if n ≠ BLOCKSIZE_BYTE then ⟨[], .fatal⟩
        else ⟨iv ++ xorKeyStream (aes st.key) iv st.source.bytes, .ok⟩
    else ⟨[], .fatal⟩

/-- `func gcm(ctx *cli.Context) error` -/
def gcm (aes : Bytes → Nat → Nat) (ctx : Context) (w : World) : Run :=
  match prepare ctx w with
  | .error e => ⟨[], e⟩
  | .ok st =>
    if ctx.command = "decrypt" then
      match st.source.upTo gcmNonceSize with
      | none => ⟨[], .panic⟩
      | some nonce =>
        match st.source.dropTo gcmNonceSize with
        | none => ⟨[], .panic⟩
        | some ciphertext =>
          match gcmOpen (aes st.key) nonce.bytes ciphertext.bytes [] with
          | .panic => ⟨[], .panic⟩
          | .errOpen => ⟨[], .error .gcmOpen⟩
          | .plain destination => ⟨destination, .ok⟩
    else if ctx.command = "encrypt" then
      match randRead w gcmNonceSize with
      | (nonce, n, err) =>
        if err then ⟨[], .error .entropy⟩
        else if n ≠ gcmNonceSize then ⟨[], .error .nonceShort⟩
        else
          match gcmSeal (aes st.key) nonce st.source.bytes [] with
          | none => ⟨nonce, .panic⟩
          | some destination => ⟨nonce ++ destination, .ok⟩
    else ⟨[], .ok⟩

/-- The files named on the command line are given, the input file opens and
the output file is created. -/
def filesOk (ctx : Context) (w : World) : Prop :=
  ctx.inArg ≠ "" ∧ ctx.outArg ≠ "" ∧ w.openOk = true ∧ w.createOk = true

instance (ctx : Context) (w : World) : Decidable (filesOk ctx w) := by
  unfold filesOk; infer_instance

/-- The text decodes to the 16 bytes `K`: `hex.Decode` into a 16-byte buffer
returns 16 and no error, and leaves `K` in the buffer. -/
def decodesTo (text K : Bytes) : Prop :=
  hexDecode (List.replicate BLOCKSIZE_BYTE 0) text = .done K BLOCKSIZE_BYTE

instance (text K : Bytes) : Decidable (decodesTo text K) := by
  unfold decodesTo; infer_instance

/-! ## Notions of the specification -/

/-- How many IV sources a command line selects among the explicit IV,
`implicit-decrypt` and `implicit-encrypt`. -/
def ivSources (ctx : Context) : Nat :=
  (if ctx.iv ≠ [] then 1 else 0) + (if ctx.implicitDecrypt then 1 else 0) +
    (if ctx.implicitEncrypt then 1 else 0)

/-- The command line with only its first selected IV source left, in the order
explicit IV, `implicit-decrypt`, `implicit-encrypt`. -/
def firstSourceOnly (ctx : Context) : Context :=
  if ctx.iv ≠ [] then { ctx with implicitDecrypt := false, implicitEncrypt := false }
  else if ctx.implicitDecrypt then { ctx with implicitEncrypt := false }
  else ctx

/-- Well-formed hexadecimal text: an even number of bytes, each a hexadecimal
digit. -/
def wellFormedHex (t : Bytes) : Prop := (∀ c ∈ t, fromHexChar c ≠ none) ∧ t.length % 2 = 0

instance (t : Bytes) : Decidable (wellFormedHex t) := by
  unfold wellFormedHex; infer_instance

/-! ## Sample command lines and worlds -/

/-- The key or IV text of 32 characters `0`. -/
def zeroText : Bytes := List.replicate 32 48

/-- A command line with files `in` and `out` and the key text `zeroText`. -/
def sampleContext (command : String) (iv : Bytes) (implicitEncrypt implicitDecrypt : Bool) :
    Context :=
  ⟨"in", "out", zeroText, iv, implicitEncrypt, implicitDecrypt, command⟩

/-- A world in which both files open, the input file holds `input` with no
spare capacity behind it, and the random source delivers `rand`. -/
def sampleWorld (input rand : Bytes) : World := ⟨true, true, input, [], rand⟩

/-- A stand-in block function to run the model on samples. -/
def sampleCipher : Bytes → Nat → Nat := fun k b => (beNat k + 3 * b + 1) % 2 ^ 128

/-- An input one byte longer than `Seal` accepts. -/
def longInput : Bytes := List.replicate (gcmMaxPlaintext + 1) 0

/-! ## Lemmas on the library functions -/

theorem length_blockBytes (x : Nat) : (blockBytes x).length = 16 := by
  simp [blockBytes]

theorem length_keyStream (E inc : Nat → Nat) (n c : Nat) :
    (keyStream E inc n c).length = 16 * n := by
  induction n generalizing c with
  | zero => simp [keyStream]
  | succ n ih => simp [keyStream, length_blockBytes, ih]; omega

theorem length_xorStream (E inc : Nat → Nat) (c : Nat) (src : Bytes) :
    (xorStream E inc c src).length = src.length := by
  simp only [xorStream, List.length_zipWith, length_keyStream]
  omega

theorem zipWith_xor_cancel (src ks : Bytes) (h : src.length ≤ ks.length) :
    List.zipWith (· ^^^ ·) (List.zipWith (· ^^^ ·) src ks) ks = src := by
  induction src generalizing ks with
  | nil => simp
  | cons a src ih =>
    cases ks with
    | nil => simp at h
    | cons k ks =>
      simp only [List.length_cons, Nat.add_le_add_iff_right] at h
      simp [ih ks h, Nat.xor_assoc]

/-- Applying the stream twice from the same counter block gives the input
back. -/
theorem xorStream_xorStream (E inc : Nat → Nat) (c : Nat) (src : Bytes) :
    xorStream E inc c (xorStream E inc c src) = src := by
  have hl := length_xorStream E inc c src
  unfold xorStream at hl ⊢
  rw [hl]
  apply zipWith_xor_cancel
  rw [length_keyStream]
  omega

theorem hexDecodeLoop_length (dst : Bytes) (i : Nat) (src d : Bytes) (n : Nat)
    (h : hexDecodeLoop dst i src = .done d n) : d.length = dst.length := by
  induction dst, i, src using hexDecodeLoop.induct with
  | case1 dst i p q rest hp => simp [hexDecodeLoop, hp] at h
  | case2 dst i p q rest a hp hq => simp [hexDecodeLoop, hp, hq] at h
  | case3 dst i p q rest a hp b hq hi ih =>
    simp only [hexDecodeLoop, hp, hq, hi, if_true] at h
    simpa using ih h
  | case4 dst i p q rest a hp b hq hi => simp [hexDecodeLoop, hp, hq, hi] at h
  | case5 dst i p hp => simp [hexDecodeLoop, hp] at h
  | case6 dst i p a hp => simp [hexDecodeLoop, hp] at h
  | case7 dst i =>
    simp only [hexDecodeLoop, HexResult.done.injEq] at h
    rw [← h.1]

theorem decodesTo_length (text K : Bytes) (h : decodesTo text K) : K.length = 16 := by
  have := hexDecodeLoop_length _ _ _ _ _ h
  simpa [BLOCKSIZE_BYTE] using this

theorem decodesTo_ne_nil (text K : Bytes) (h : decodesTo text K) : text ≠ [] := by
  rintro rfl
  simp [decodesTo, hexDecode, hexDecodeLoop, BLOCKSIZE_BYTE] at h

/-- With the files in order and a key text that decodes to `K`, `prepare`
succeeds: `source` holds the input and the cipher is keyed with `K`. -/
theorem prepare_ok (ctx : Context) (w : World) (K : Bytes)
    (hf : filesOk ctx w) (hk : decodesTo ctx.key K) :
    prepare ctx w = .ok ⟨⟨w.input ++ w.spare, w.input.length⟩, K⟩ := by
  obtain ⟨h1, h2, h3, h4⟩ := hf
  have hl := decodesTo_length _ _ hk
  have hne := decodesTo_ne_nil _ _ hk
  unfold decodesTo at hk
  simp [prepare, h1, h2, h3, h4, hne, hk, hl]

theorem source_bytes (w : World) :
    (Slice.mk (w.input ++ w.spare) w.input.length).bytes = w.input := by
  simp [Slice.bytes]

/-- Decoding a digit of the table gives its value back. -/
theorem fromHexChar_hexDigit : ∀ d < 16, fromHexChar (hexDigit d) = some d := by decide

/-- The two halves of a byte are below 16 and spell the byte. -/
theorem hex_byte (b : Nat) (h : b < 256) :
    ((b >>> 4) <<< 4) ||| (b &&& 0x0f) = b ∧ b >>> 4 < 16 ∧ b &&& 0x0f < 16 := by
  have e1 : b &&& 0x0f = b % 16 := Nat.and_pow_two_sub_one_eq_mod b 4
  have e2 : b >>> 4 = b / 16 := Nat.shiftRight_eq_div_pow b 4
  have e3 := Nat.mul_add_lt_is_or (by omega : b % 16 < 2 ^ 4) (b / 16)
  rw [e1, e2, Nat.shiftLeft_eq, Nat.mul_comm, ← e3]
  omega

/-- The loop of `hex.Decode` on the encoding of `K` writes `K` at position `i`. -/
theorem hexDecodeLoop_hexEncode (K : Bytes) (hb : ∀ b ∈ K, b < 256) (dst : Bytes) (i : Nat)
    (hfit : i + K.length ≤ dst.length) :
    hexDecodeLoop dst i (hexEncode K) =
      .done (dst.take i ++ K ++ dst.drop (i + K.length)) (i + K.length) := by
  induction K generalizing dst i with
  | nil => simp [hexEncode, hexDecodeLoop]
  | cons b bs ih =>
    have hb256 := hb b (by simp)
    obtain ⟨h1, h2, h3⟩ := hex_byte b hb256
    have hi : i < dst.length := by simp only [List.length_cons] at hfit; omega
    simp only [hexEncode, hexDecodeLoop, fromHexChar_hexDigit _ h2, fromHexChar_hexDigit _ h3, h1,
      hi, if_true]
    rw [ih (fun c hc => hb c (by simp [hc])) _ _ (by simp only [List.length_set, List.length_cons] at hfit ⊢; omega)]
    simp only [List.length_cons, HexResult.done.injEq]
    refine ⟨?_, by omega⟩
    rw [List.set_eq_take_append_cons_drop]
    simp only [hi, if_true]
    have hA : (List.take i dst).length = i := by rw [List.length_take]; omega
    have e1 : i + 1 - i = 1 := by omega
    have e2 : i + 1 + bs.length - i = bs.length + 1 := by omega
    have e3 : i + 1 + bs.length = i + (bs.length + 1) := by omega
    have t1 : List.take (i + 1) (List.take i dst ++ b :: List.drop (i + 1) dst)
        = List.take i dst ++ [b] := by
      rw [List.take_append_eq_append_take, hA, e1, List.take_of_length_le (by omega)]
      simp
    have t2 : List.drop (i + 1 + bs.length) (List.take i dst ++ b :: List.drop (i + 1) dst)
        = List.drop (i + (bs.length + 1)) dst := by
      rw [List.drop_append_eq_append_drop, hA, e2, List.drop_of_length_le (by omega)]
      simp only [List.nil_append, List.drop_succ_cons, List.drop_drop]
      congr 1
    rw [t1, t2]
    simp

/-- Every key or IV of 16 bytes is what its hexadecimal encoding decodes to. -/
theorem decodesTo_hexEncode (K : Bytes) (hlen : K.length = 16) (hb : ∀ b ∈ K, b < 256) :
    decodesTo (hexEncode K) K := by
  unfold decodesTo hexDecode
  rw [hexDecodeLoop_hexEncode K hb _ 0 (by simp [BLOCKSIZE_BYTE, hlen])]
  simp [hlen, BLOCKSIZE_BYTE]

/-! ## Counter mode -/

/-- With an explicit IV that decodes to `V`, `ctr` writes the input combined
with the key stream of `K` and `V`, and returns `nil`. -/
theorem ctr_explicit (aes : Bytes → Nat → Nat) (ctx : Context) (w : World) (K V : Bytes)
    (hf : filesOk ctx w) (hk : decodesTo ctx.key K) (hv : decodesTo ctx.iv V) :
    ctr aes ctx w = ⟨xorKeyStream (aes K) V w.input, .ok⟩ := by
  have hne := decodesTo_ne_nil _ _ hv
  unfold decodesTo at hv
  simp [ctr, prepare_ok ctx w K hf hk, hne, hv, source_bytes]

/-- With no explicit IV and `implicit-decrypt`, on an input that starts with the
16 bytes `V`, `ctr` strips them and writes the rest combined with the key
stream of `K` and `V`. -/
theorem ctr_implicit_decrypt (aes : Bytes → Nat → Nat) (ctx : Context) (w : World)
    (K V X : Bytes) (hf : filesOk ctx w) (hk : decodesTo ctx.key K) (hiv : ctx.iv = [])
    (hd : ctx.implicitDecrypt = true) (hV : V.length = 16) (hin : w.input = V ++ X) :
    ctr aes ctx w = ⟨xorKeyStream (aes K) V X, .ok⟩ := by
  have e1 : List.take 16 (V ++ (X ++ w.spare)) = V := by
    rw [List.take_append_of_le_length (by omega), List.take_of_length_le (by omega)]
  have e2 : List.take (16 + X.length - 16) (List.drop 16 (V ++ (X ++ w.spare))) = X := by
    rw [List.drop_append_of_le_length (by omega), List.drop_of_length_le (by omega)]
    simp
  have e3 : List.take 16 V = V := List.take_of_length_le (by omega)
  simp [ctr, prepare_ok ctx w K hf hk, hiv, hd, hin, Slice.upTo, Slice.dropTo, Slice.cap,
    Slice.bytes, BLOCKSIZE_BYTE, hV, copyInto, e1, e2, e3]

/-- With no explicit IV, `implicit-encrypt` and not `implicit-decrypt`, when the
random source delivers the 16 bytes `V`, `ctr` writes `V` and then the input
combined with the key stream of `K` and `V`. -/
theorem ctr_implicit_encrypt (aes : Bytes → Nat → Nat) (ctx : Context) (w : World)
    (K V : Bytes) (hf : filesOk ctx w) (hk : decodesTo ctx.key K) (hiv : ctx.iv = [])
    (hd : ctx.implicitDecrypt = false) (he : ctx.implicitEncrypt = true)
    (hV : V.length = 16) (hr : w.rand.take 16 = V) :
    ctr aes ctx w = ⟨V ++ xorKeyStream (aes K) V w.input, .ok⟩ := by
  simp [ctr, prepare_ok ctx w K hf hk, hiv, hd, he, randRead, BLOCKSIZE_BYTE, hr, hV,
    source_bytes]

/-- C1: counter mode round trip.  For every key text that decodes to 16 bytes
`K`, every explicit IV text that decodes to 16 bytes `V` and every input `P`,
running `ctr` under `K` and `V` on what `ctr` wrote for `P` under `K` and `V`
writes exactly `P` and returns `nil`. -/
theorem ctr_round_trip (aes : Bytes → Nat → Nat) (ctx₁ ctx₂ : Context) (w₁ w₂ : World)
    (K V : Bytes)
    (hf₁ : filesOk ctx₁ w₁) (hk₁ : decodesTo ctx₁.key K) (hv₁ : decodesTo ctx₁.iv V)
    (hf₂ : filesOk ctx₂ w₂) (hk₂ : decodesTo ctx₂.key K) (hv₂ : decodesTo ctx₂.iv V)
    (hin : w₂.input = (ctr aes ctx₁ w₁).written) :
    ctr aes ctx₂ w₂ = ⟨w₁.input, .ok⟩ := by
  rw [ctr_explicit aes ctx₁ w₁ K V hf₁ hk₁ hv₁] at hin
  rw [ctr_explicit aes ctx₂ w₂ K V hf₂ hk₂ hv₂, hin]
  simp [xorKeyStream, xorStream_xorStream]

/-- C2: counter mode length invariance.  With a key text and an explicit IV
text that decode to 16 bytes each, `ctr` returns `nil` and writes exactly as
many bytes as the input has; on the empty input it writes nothing. -/
theorem ctr_length (aes : Bytes → Nat → Nat) (ctx : Context) (w : World) (K V : Bytes)
    (hf : filesOk ctx w) (hk : decodesTo ctx.key K) (hv : decodesTo ctx.iv V) :
    (ctr aes ctx w).exit = .ok ∧ (ctr aes ctx w).written.length = w.input.length ∧
      (w.input = [] → (ctr aes ctx w).written = []) := by
  rw [ctr_explicit aes ctx w K V hf hk hv]
  refine ⟨rfl, ?_, ?_⟩
  · simp [xorKeyStream, length_xorStream]
  · intro h
    simp [h, xorKeyStream, xorStream]

/-- C3: implicit-IV framing round trip.  With no explicit IV, when the random
source delivers the 16 bytes `V`, `ctr` with `implicit-encrypt` writes
`V ++ xorKeyStream K V P`, which is `len P + 16` bytes; and `ctr` with
`implicit-decrypt` under the same key on that output strips the first 16
bytes, uses them as IV and writes exactly `P`. -/
theorem ctr_implicit_round_trip (aes : Bytes → Nat → Nat) (ctx₁ ctx₂ : Context)
    (w₁ w₂ : World) (K V : Bytes)
    (hf₁ : filesOk ctx₁ w₁) (hk₁ : decodesTo ctx₁.key K) (hiv₁ : ctx₁.iv = [])
    (hd₁ : ctx₁.implicitDecrypt = false) (he₁ : ctx₁.implicitEncrypt = true)
    (hV : V.length = 16) (hr : w₁.rand.take 16 = V)
    (hf₂ : filesOk ctx₂ w₂) (hk₂ : decodesTo ctx₂.key K) (hiv₂ : ctx₂.iv = [])
    (hd₂ : ctx₂.implicitDecrypt = true)
    (hin : w₂.input = (ctr aes ctx₁ w₁).written) :
    ctr aes ctx₁ w₁ = ⟨V ++ xorKeyStream (aes K) V w₁.input, .ok⟩ ∧
      (ctr aes ctx₁ w₁).written.length = w₁.input.length + 16 ∧
      ctr aes ctx₂ w₂ = ⟨w₁.input, .ok⟩ := by
  have h1 := ctr_implicit_encrypt aes ctx₁ w₁ K V hf₁ hk₁ hiv₁ hd₁ he₁ hV hr
  rw [h1] at hin
  refine ⟨h1, ?_, ?_⟩
  · rw [h1]
    simp [xorKeyStream, length_xorStream, hV]
    omega
  · rw [ctr_implicit_decrypt aes ctx₂ w₂ K V _ hf₂ hk₂ hiv₂ hd₂ hV hin]
    simp [xorKeyStream, xorStream_xorStream]

/-! ## Galois/counter mode -/

theorem length_gcmAuth (E : Nat → Nat) (ct data : Bytes) (m : Nat) :
    (gcmAuth E ct data m).length = 16 := by
  simp [gcmAuth, length_blockBytes]

/-- What `Seal` returns on a nonce of 12 bytes and a plaintext within the
limit. -/
theorem gcmSeal_eq (E : Nat → Nat) (N P data : Bytes) (hN : N.length = 12)
    (hP : P.length ≤ gcmMaxPlaintext) :
    gcmSeal E N P data = some
      (gcmCounterCrypt E (gcmInc32 (gcmDeriveCounter N)) P ++
        gcmAuth E (gcmCounterCrypt E (gcmInc32 (gcmDeriveCounter N)) P) data
          (E (gcmDeriveCounter N))) := by
  simp [gcmSeal, gcmNonceSize, hN, Nat.not_lt.mpr hP]

theorem gcmSeal_length (E : Nat → Nat) (N P data sealed : Bytes)
    (h : gcmSeal E N P data = some sealed) : sealed.length = P.length + 16 := by
  unfold gcmSeal at h
  split at h
  · simp at h
  · split at h
    · simp at h
    · simp only [Option.some.injEq] at h
      rw [← h]
      simp [gcmCounterCrypt, length_xorStream, length_gcmAuth]

/-- `Open` inverts `Seal` under the same block function, nonce and data. -/
theorem gcmOpen_gcmSeal (E : Nat → Nat) (N P data sealed : Bytes)
    (h : gcmSeal E N P data = some sealed) : gcmOpen E N sealed data = .plain P := by
  have hlen := gcmSeal_length E N P data sealed h
  unfold gcmSeal at h
  split at h
  · simp at h
  · rename_i hN
    split at h
    · simp at h
    · rename_i hP
      simp only [Option.some.injEq] at h
      have hX : (gcmCounterCrypt E (gcmInc32 (gcmDeriveCounter N)) P).length = P.length := by
        simp [gcmCounterCrypt, length_xorStream]
      have e1 : sealed.length - gcmTagSize = P.length := by simp [hlen, gcmTagSize]
      have htake : List.take P.length sealed =
          gcmCounterCrypt E (gcmInc32 (gcmDeriveCounter N)) P := by
        rw [← h, List.take_append_of_le_length (by omega), List.take_of_length_le (by omega)]
      have hdrop : List.drop P.length sealed =
          gcmAuth E (gcmCounterCrypt E (gcmInc32 (gcmDeriveCounter N)) P) data
            (E (gcmDeriveCounter N)) := by
        rw [← h, List.drop_append_of_le_length (by omega), List.drop_of_length_le (by omega)]
        simp
      have h16 : ¬ sealed.length < gcmTagSize := by simp [hlen, gcmTagSize]
      have hmax : ¬ sealed.length > gcmMaxPlaintext + gcmTagSize := by
        simp only [hlen, gcmTagSize]; omega
      simp only [gcmOpen, hN, h16, hmax, if_false, e1, htake, hdrop, ne_eq, not_true_eq_false]
      simp [gcmCounterCrypt, xorStream_xorStream]

/-- With command `encrypt`, a random source that delivers the 12 bytes `N` and
an input within the limit of `Seal`, `gcm` writes `N` and then what `Seal`
returns. -/
theorem gcm_encrypt (aes : Bytes → Nat → Nat) (ctx : Context) (w : World) (K N : Bytes)
    (hf : filesOk ctx w) (hk : decodesTo ctx.key K) (hc : ctx.command = "encrypt")
    (hN : N.length = 12) (hr : w.rand.take 12 = N)
    (hP : w.input.length ≤ gcmMaxPlaintext) :
    ∃ sealed, gcmSeal (aes K) N w.input [] = some sealed ∧
      gcm aes ctx w = ⟨N ++ sealed, .ok⟩ := by
  refine ⟨_, gcmSeal_eq (aes K) N w.input [] hN hP, ?_⟩
  simp [gcm, prepare_ok ctx w K hf hk, hc, randRead, gcmNonceSize, hr, hN, source_bytes,
    gcmSeal_eq (aes K) N w.input [] hN hP]

/-- With command `decrypt`, on an input that is 12 bytes `N` followed by
`rest`, `gcm` hands `N` and `rest` to `Open`. -/
theorem gcm_decrypt (aes : Bytes → Nat → Nat) (ctx : Context) (w : World) (K N rest : Bytes)
    (hf : filesOk ctx w) (hk : decodesTo ctx.key K) (hc : ctx.command = "decrypt")
    (hN : N.length = 12) (hin : w.input = N ++ rest) :
    gcm aes ctx w =
      match gcmOpen (aes K) N rest [] with
      | .panic => ⟨[], .panic⟩
      | .errOpen => ⟨[], .error .gcmOpen⟩
      | .plain destination => ⟨destination, .ok⟩ := by
  have e1 : List.take 12 (N ++ (rest ++ w.spare)) = N := by
    rw [List.take_append_of_le_length (by omega), List.take_of_length_le (by omega)]
  have e2 : List.take (12 + rest.length - 12) (List.drop 12 (N ++ (rest ++ w.spare))) = rest := by
    rw [List.drop_append_of_le_length (by omega), List.drop_of_length_le (by omega)]
    simp
  simp [gcm, prepare_ok ctx w K hf hk, hc, hin, Slice.upTo, Slice.dropTo, Slice.cap,
    Slice.bytes, gcmNonceSize, hN, e1, e2]

/-- With command `encrypt` and an input longer than `Seal` accepts, `gcm`
writes the nonce and then panics inside `Seal`. -/
theorem gcm_encrypt_too_long (aes : Bytes → Nat → Nat) (ctx : Context) (w : World)
    (K N : Bytes) (hf : filesOk ctx w) (hk : decodesTo ctx.key K)
    (hc : ctx.command = "encrypt") (hN : N.length = 12) (hr : w.rand.take 12 = N)
    (hP : gcmMaxPlaintext < w.input.length) :
    gcm aes ctx w = ⟨N, .panic⟩ := by
  have hs : gcmSeal (aes K) N w.input [] = none := by
    simp [gcmSeal, gcmNonceSize, hN, hP]
  simp [gcm, prepare_ok ctx w K hf hk, hc, randRead, gcmNonceSize, hr, hN, source_bytes, hs]

theorem sample_filesOk (command : String) (iv : Bytes) (e d : Bool) (input rand : Bytes) :
    filesOk (sampleContext command iv e d) (sampleWorld input rand) := by
  simp [filesOk, sampleContext, sampleWorld]

theorem sample_key (command : String) (iv : Bytes) (e d : Bool) :
    decodesTo (sampleContext command iv e d).key (List.replicate 16 0) := by
  show decodesTo zeroText (List.replicate 16 0)
  decide

theorem length_longInput : longInput.length = gcmMaxPlaintext + 1 := by
  simp [longInput]

/-- C4, as stated, fails: on an input one byte longer than `Seal` accepts,
`gcm` with command `encrypt` panics after writing the nonce, and `gcm` with
command `decrypt` on what was written does not give the input back, whatever
the block cipher. -/
theorem gcm_round_trip_long_input :
    ¬ ∃ aes : Bytes → Nat → Nat,
      gcm aes (sampleContext "decrypt" [] false false)
        (sampleWorld
          (gcm aes (sampleContext "encrypt" [] false false)
            (sampleWorld longInput (List.replicate 12 0))).written [])
        = ⟨longInput, .ok⟩ := by
  rintro ⟨aes, h⟩
  rw [gcm_encrypt_too_long aes _ _ (List.replicate 16 0) (List.replicate 12 0)
    (sample_filesOk _ _ _ _ _ _) (sample_key _ _ _ _) rfl (by simp) (by simp [sampleWorld])
    (by simp [sampleWorld, length_longInput])] at h
  rw [gcm_decrypt aes _ _ (List.replicate 16 0) (List.replicate 12 0) []
    (sample_filesOk _ _ _ _ _ _) (sample_key _ _ _ _) rfl (by simp) (by simp [sampleWorld])] at h
  simp [gcmOpen, gcmNonceSize, gcmTagSize] at h

/-- C4, amended: authenticated mode round trip.  For every key text that
decodes to 16 bytes `K`, every input `P` of at most `(2^32 - 2) * 16` bytes and
every 12-byte nonce `N` the random source delivers, `gcm` with command
`decrypt` under `K` on what `gcm` with command `encrypt` wrote for `P` returns
`nil` and writes exactly `P`. -/
theorem gcm_round_trip (aes : Bytes → Nat → Nat) (ctx₁ ctx₂ : Context) (w₁ w₂ : World)
    (K N : Bytes)
    (hf₁ : filesOk ctx₁ w₁) (hk₁ : decodesTo ctx₁.key K) (hc₁ : ctx₁.command = "encrypt")
    (hN : N.length = 12) (hr : w₁.rand.take 12 = N)
    (hP : w₁.input.length ≤ gcmMaxPlaintext)
    (hf₂ : filesOk ctx₂ w₂) (hk₂ : decodesTo ctx₂.key K) (hc₂ : ctx₂.command = "decrypt")
    (hin : w₂.input = (gcm aes ctx₁ w₁).written) :
    gcm aes ctx₂ w₂ = ⟨w₁.input, .ok⟩ := by
  obtain ⟨sealed, hs, h1⟩ := gcm_encrypt aes ctx₁ w₁ K N hf₁ hk₁ hc₁ hN hr hP
  rw [h1] at hin
  rw [gcm_decrypt aes ctx₂ w₂ K N sealed hf₂ hk₂ hc₂ hN hin,
    gcmOpen_gcmSeal (aes K) N w₁.input [] sealed hs]

/-- C10, as stated, fails: on an input one byte longer than `Seal` accepts,
`gcm` with command `encrypt` does not write `12 + len P + 16` bytes, whatever
the block cipher. -/
theorem gcm_layout_long_input :
    ¬ ∃ aes : Bytes → Nat → Nat,
      (gcm aes (sampleContext "encrypt" [] false false)
        (sampleWorld longInput (List.replicate 12 1))).written.length
        = 12 + longInput.length + 16 := by
  rintro ⟨aes, h⟩
  rw [gcm_encrypt_too_long aes _ _ (List.replicate 16 0) (List.replicate 12 1)
    (sample_filesOk _ _ _ _ _ _) (sample_key _ _ _ _) rfl (by simp) (by simp [sampleWorld])
    (by simp [sampleWorld, length_longInput])] at h
  rw [List.length_replicate] at h
  omega

/-- C10, amended: authenticated mode output layout.  For every key text that
decodes to 16 bytes `K`, every input `P` of at most `(2^32 - 2) * 16` bytes and
every 12-byte nonce `N` the random source delivers, `gcm` with command
`encrypt` returns `nil` and writes exactly `N` followed by what
`Seal(K, N, P, no data)` returns, `12 + len P + 16` bytes in all. -/
theorem gcm_layout (aes : Bytes → Nat → Nat) (ctx : Context) (w : World) (K N : Bytes)
    (hf : filesOk ctx w) (hk : decodesTo ctx.key K) (hc : ctx.command = "encrypt")
    (hN : N.length = 12) (hr : w.rand.take 12 = N)
    (hP : w.input.length ≤ gcmMaxPlaintext) :
    ∃ sealed, gcmSeal (aes K) N w.input [] = some sealed ∧
      gcm aes ctx w = ⟨N ++ sealed, .ok⟩ ∧
      (gcm aes ctx w).written.length = 12 + w.input.length + 16 := by
  obtain ⟨sealed, hs, h1⟩ := gcm_encrypt aes ctx w K N hf hk hc hN hr hP
  refine ⟨sealed, hs, h1, ?_⟩
  rw [h1]
  simp [hN, gcmSeal_length (aes K) N w.input [] sealed hs]
  omega

/-! ## Short inputs -/

/-- C6: with no explicit IV and `implicit-decrypt`, on an input of fewer than 16
bytes `ctr` panics in one of the two slice expressions, whatever the spare
capacity behind the input; it returns no error and writes nothing. -/
theorem ctr_implicit_decrypt_short_input (aes : Bytes → Nat → Nat) (ctx : Context)
    (w : World) (K : Bytes) (hf : filesOk ctx w) (hk : decodesTo ctx.key K)
    (hiv : ctx.iv = []) (hd : ctx.implicitDecrypt = true) (hlen : w.input.length < 16) :
    ctr aes ctx w = ⟨[], .panic⟩ := by
  simp only [ctr, prepare_ok ctx w K hf hk, hiv, hd, Slice.upTo, Slice.dropTo, BLOCKSIZE_BYTE,
    Nat.not_le.mpr hlen, ne_eq, not_true_eq_false, if_false, if_true]
  split <;> rfl

/-- With command `decrypt`, on an input of fewer than 12 bytes `gcm` panics in
one of the two slice expressions. -/
theorem gcm_decrypt_below_nonce_size (aes : Bytes → Nat → Nat) (ctx : Context)
    (w : World) (K : Bytes) (hf : filesOk ctx w) (hk : decodesTo ctx.key K)
    (hc : ctx.command = "decrypt") (hlen : w.input.length < 12) :
    gcm aes ctx w = ⟨[], .panic⟩ := by
  simp only [gcm, prepare_ok ctx w K hf hk, hc, Slice.upTo, Slice.dropTo, gcmNonceSize,
    Nat.not_le.mpr hlen, if_false, if_true]
  split <;> rfl

/-- C7, as stated, fails: on an input of 20 bytes `gcm` with command `decrypt`
returns no error other than the one of a failed authentication, whatever the
block cipher. -/
theorem gcm_decrypt_short_input_same_error :
    ¬ ∃ aes : Bytes → Nat → Nat, ∃ e : Err,
      (gcm aes (sampleContext "decrypt" [] false false)
        (sampleWorld (List.replicate 20 7) [])).exit = .error e ∧ e ≠ .gcmOpen := by
  rintro ⟨aes, e, h, hne⟩
  rw [gcm_decrypt aes _ _ (List.replicate 16 0) (List.replicate 12 7) (List.replicate 8 7)
    (sample_filesOk _ _ _ _ _ _) (sample_key _ _ _ _) rfl (by simp)
    (by simp [sampleWorld, ← List.replicate_add])] at h
  simp [gcmOpen, gcmNonceSize, gcmTagSize] at h
  exact hne h.symm

/-- C7, amended: with command `decrypt`, on an input of at least 12 and fewer
than 28 bytes `gcm` writes nothing and returns the error of `Open`, the same
error a failed authentication gives. -/
theorem gcm_decrypt_short_input (aes : Bytes → Nat → Nat) (ctx : Context) (w : World)
    (K : Bytes) (hf : filesOk ctx w) (hk : decodesTo ctx.key K)
    (hc : ctx.command = "decrypt") (hlo : 12 ≤ w.input.length) (hhi : w.input.length < 28) :
    gcm aes ctx w = ⟨[], .error .gcmOpen⟩ := by
  rw [gcm_decrypt aes ctx w K (w.input.take 12) (w.input.drop 12) hf hk hc
    (by simp; omega) (by simp)]
  have h16 : w.input.length - 12 < gcmTagSize := by simp only [gcmTagSize]; omega
  simp [gcmOpen, gcmNonceSize, h16, Nat.min_eq_left hlo]

/-! ## IV sources -/

/-- C8, as stated, fails: with an explicit IV and both implicit flags set, `ctr`
returns no error, whatever the block cipher. -/
theorem ctr_conflicting_sources_accepted :
    ¬ ∃ aes : Bytes → Nat → Nat, ∃ e : Err,
      (ctr aes (sampleContext "ctr" zeroText true true) (sampleWorld [65] [])).exit
        = .error e := by
  rintro ⟨aes, e, h⟩
  rw [ctr_explicit aes _ _ (List.replicate 16 0) (List.replicate 16 0)
    (sample_filesOk _ _ _ _ _ _) (sample_key _ _ _ _) (by decide)] at h
  simp at h

/-- C8, amended: when more than one IV source is selected, `ctr` runs exactly
as it does with only the first selected source in the order explicit IV,
`implicit-decrypt`, `implicit-encrypt`; the sources after it are ignored. -/
theorem ctr_first_source_only (aes : Bytes → Nat → Nat) (ctx : Context) (w : World)
    (h : 1 < ivSources ctx) :
    ctr aes ctx w = ctr aes (firstSourceOnly ctx) w ∧ ivSources (firstSourceOnly ctx) = 1 := by
  unfold ivSources at h
  by_cases hiv : ctx.iv = []
  · by_cases hd : ctx.implicitDecrypt = true
    · refine ⟨?_, ?_⟩
      · simp [firstSourceOnly, hiv, hd, ctr, prepare]
      · simp [firstSourceOnly, hiv, hd, ivSources]
    · exfalso
      have hd0 : ctx.implicitDecrypt = false := by simpa using hd
      simp only [hiv, hd0, ne_eq, not_true_eq_false, if_false, Bool.false_eq_true] at h
      split at h <;> omega
  · refine ⟨?_, ?_⟩
    · simp [firstSourceOnly, hiv, ctr, prepare]
    · simp [firstSourceOnly, hiv, ivSources]

/-! ## Key and IV texts -/

/-- On well-formed text that fits the buffer, the loop of `hex.Decode` ends
without error after one byte per two characters. -/
theorem hexDecodeLoop_done (dst : Bytes) (i : Nat) (src : Bytes)
    (hw : wellFormedHex src) (hfit : i + src.length / 2 ≤ dst.length) :
    ∃ d, hexDecodeLoop dst i src = .done d (i + src.length / 2) := by
  induction dst, i, src using hexDecodeLoop.induct with
  | case1 dst i p q rest hp => exact absurd hp (hw.1 p (by simp))
  | case2 dst i p q rest a hp hq => exact absurd hq (hw.1 q (by simp))
  | case3 dst i p q rest a hp b hq hi ih =>
    have hw2 : wellFormedHex rest := by
      refine ⟨fun c hc => hw.1 c (by simp [hc]), ?_⟩
      have := hw.2
      simp only [List.length_cons] at this
      omega
    have hlen : (p :: q :: rest).length / 2 = rest.length / 2 + 1 := by
      simp only [List.length_cons]; omega
    obtain ⟨d, hd⟩ := ih hw2 (by simp only [List.length_set]; omega)
    refine ⟨d, ?_⟩
    simp only [hexDecodeLoop, hp, hq, hi, if_true, hd, hlen]
    congr 1
    omega
  | case4 dst i p q rest a hp b hq hi =>
    simp only [List.length_cons] at hfit
    omega
  | case5 dst i p hp => exact absurd hp (hw.1 p (by simp))
  | case6 dst i p a hp =>
    have := hw.2
    simp at this
  | case7 dst i => exact ⟨dst, by simp [hexDecodeLoop]⟩

/-- On text that is not well-formed and of which the well-formed part fits the
buffer, the loop of `hex.Decode` ends with an error. -/
theorem hexDecodeLoop_fail (dst : Bytes) (i : Nat) (src : Bytes)
    (hw : ¬ wellFormedHex src) (hfit : i + src.length / 2 ≤ dst.length) :
    ∃ e, hexDecodeLoop dst i src = .fail e := by
  induction dst, i, src using hexDecodeLoop.induct with
  | case1 dst i p q rest hp => exact ⟨.hexInvalidByte p, by simp [hexDecodeLoop, hp]⟩
  | case2 dst i p q rest a hp hq => exact ⟨.hexInvalidByte q, by simp [hexDecodeLoop, hp, hq]⟩
  | case3 dst i p q rest a hp b hq hi ih =>
    have hw2 : ¬ wellFormedHex rest := by
      intro h
      apply hw
      refine ⟨?_, ?_⟩
      · intro c hc
        simp only [List.mem_cons] at hc
        rcases hc with rfl | rfl | hc
        · simp [hp]
        · simp [hq]
        · exact h.1 c hc
      · have := h.2
        simp only [List.length_cons]
        omega
    have hlen : (p :: q :: rest).length / 2 = rest.length / 2 + 1 := by
      simp only [List.length_cons]; omega
    obtain ⟨e, he⟩ := ih hw2 (by simp only [List.length_set]; omega)
    exact ⟨e, by simp only [hexDecodeLoop, hp, hq, hi, if_true, he]⟩
  | case4 dst i p q rest a hp b hq hi =>
    simp only [List.length_cons] at hfit
    omega
  | case5 dst i p hp => exact ⟨.hexInvalidByte p, by simp [hexDecodeLoop, hp]⟩
  | case6 dst i p a hp => exact ⟨.hexLength, by simp [hexDecodeLoop, hp]⟩
  | case7 dst i => exact absurd (by simp [wellFormedHex]) hw

/-- A text of at most 32 bytes decodes to 16 bytes exactly when it is 32
hexadecimal digits. -/
theorem decodesTo_iff (t : Bytes) (hlen : t.length ≤ 32) :
    (∃ K, decodesTo t K) ↔ (wellFormedHex t ∧ t.length = 32) := by
  constructor
  · rintro ⟨K, hK⟩
    unfold decodesTo hexDecode at hK
    by_cases hw : wellFormedHex t
    · refine ⟨hw, ?_⟩
      obtain ⟨d, hd⟩ := hexDecodeLoop_done (List.replicate BLOCKSIZE_BYTE 0) 0 t hw
        (by simp [BLOCKSIZE_BYTE]; omega)
      rw [hd] at hK
      simp only [HexResult.done.injEq, BLOCKSIZE_BYTE] at hK
      have := hw.2
      omega
    · obtain ⟨e, he⟩ := hexDecodeLoop_fail (List.replicate BLOCKSIZE_BYTE 0) 0 t hw
        (by simp [BLOCKSIZE_BYTE]; omega)
      rw [he] at hK
      simp at hK
  · rintro ⟨hw, h32⟩
    obtain ⟨d, hd⟩ := hexDecodeLoop_done (List.replicate BLOCKSIZE_BYTE 0) 0 t hw
      (by simp [BLOCKSIZE_BYTE]; omega)
    refine ⟨d, ?_⟩
    unfold decodesTo hexDecode
    rw [hd, h32]
    simp [BLOCKSIZE_BYTE]

/-- A well-formed text of fewer than 32 bytes decodes without error to fewer
than 16 bytes. -/
theorem hexDecode_short (t : Bytes) (hw : wellFormedHex t) (hlen : t.length < 32) :
    ∃ d n, hexDecode (List.replicate BLOCKSIZE_BYTE 0) t = .done d n ∧ n ≠ BLOCKSIZE_BYTE := by
  obtain ⟨d, hd⟩ := hexDecodeLoop_done (List.replicate BLOCKSIZE_BYTE 0) 0 t hw
    (by simp [BLOCKSIZE_BYTE]; omega)
  exact ⟨d, _, hd, by simp only [BLOCKSIZE_BYTE]; omega⟩

/-- A text of at most 32 bytes that is not well-formed makes `hex.Decode`
return an error. -/
theorem hexDecode_malformed (t : Bytes) (hw : ¬ wellFormedHex t) (hlen : t.length ≤ 32) :
    ∃ e, hexDecode (List.replicate BLOCKSIZE_BYTE 0) t = .fail e :=
  hexDecodeLoop_fail (List.replicate BLOCKSIZE_BYTE 0) 0 t hw (by simp [BLOCKSIZE_BYTE]; omega)

/-- A key text of 34 hexadecimal digits makes `prepare` panic inside
`hex.Decode`, which writes past the 16-byte buffer. -/
theorem prepare_long_key_panics (w : World) (hf : w.openOk = true ∧ w.createOk = true) :
    prepare ⟨"in", "out", List.replicate 34 48, [], false, false, "ctr"⟩ w = .error .panic := by
  have h : hexDecode (List.replicate BLOCKSIZE_BYTE 0) (List.replicate 34 48) = .panic := by
    decide
  simp only [prepare, hf.1, hf.2, h]
  simp

/-- An explicit IV text of at most 32 bytes that is not well-formed hex makes
`ctr` return the error of `hex.Decode`. -/
theorem ctr_explicit_malformed (aes : Bytes → Nat → Nat) (ctx : Context) (w : World)
    (K : Bytes) (hf : filesOk ctx w) (hk : decodesTo ctx.key K) (hne : ctx.iv ≠ [])
    (hw : ¬ wellFormedHex ctx.iv) (hvl : ctx.iv.length ≤ 32) :
    ∃ e, ctr aes ctx w = ⟨[], .error e⟩ := by
  obtain ⟨e, he⟩ := hexDecode_malformed _ hw hvl
  exact ⟨e, by simp [ctr, prepare_ok ctx w K hf hk, hne, he]⟩

/-- An explicit IV text that is well-formed hex of fewer than 32 digits makes
`ctr` end the process through `log.Fatalf`. -/
theorem ctr_explicit_short (aes : Bytes → Nat → Nat) (ctx : Context) (w : World)
    (K : Bytes) (hf : filesOk ctx w) (hk : decodesTo ctx.key K) (hne : ctx.iv ≠ [])
    (hw : wellFormedHex ctx.iv) (hlt : ctx.iv.length < 32) :
    ctr aes ctx w = ⟨[], .fatal⟩ := by
  obtain ⟨d, n, hd, hn⟩ := hexDecode_short _ hw hlt
  simp [ctr, prepare_ok ctx w K hf hk, hne, hd, hn]

/-- C9, as stated, fails: the explicit IV text `00` is well-formed hex of the
wrong length, and `ctr` does not return an error on it (it ends the process
through `log.Fatalf`), whatever the block cipher. -/
theorem ctr_short_iv_not_returned :
    ¬ ∃ aes : Bytes → Nat → Nat, ∃ e : Err,
      (ctr aes (sampleContext "ctr" [48, 48] false false) (sampleWorld [65] [])).exit
        = .error e := by
  rintro ⟨aes, e, h⟩
  rw [ctr_explicit_short aes _ _ (List.replicate 16 0) (sample_filesOk _ _ _ _ _ _)
    (sample_key _ _ _ _) (by simp [sampleContext]) (by decide) (by decide)] at h
  simp at h

/-- C9, amended: key and IV texts of at most 32 bytes.  The key text decodes
exactly when it is 32 hexadecimal digits, `prepare` then succeeds with the
decoded key, and on any other key text `prepare` returns an error.  The
explicit IV text decodes exactly when it is 32 hexadecimal digits and `ctr`
then uses the decoded IV; on a text that is not well-formed hex `ctr` returns
an error and writes nothing; on well-formed hex of fewer than 32 digits `ctr`
ends the process through `log.Fatalf` and writes nothing. -/
theorem key_iv_validation (aes : Bytes → Nat → Nat) (ctx : Context) (w : World)
    (hf : filesOk ctx w) (hkl : ctx.key.length ≤ 32) (hvl : ctx.iv.length ≤ 32) :
    ((∃ K, decodesTo ctx.key K) ↔ (wellFormedHex ctx.key ∧ ctx.key.length = 32)) ∧
    (∀ K, decodesTo ctx.key K →
      prepare ctx w = .ok ⟨⟨w.input ++ w.spare, w.input.length⟩, K⟩) ∧
    ((¬ ∃ K, decodesTo ctx.key K) → ∃ e, prepare ctx w = .error (.error e)) ∧
    ((∃ V, decodesTo ctx.iv V) ↔ (wellFormedHex ctx.iv ∧ ctx.iv.length = 32)) ∧
    (∀ K, decodesTo ctx.key K → ctx.iv ≠ [] →
      (∀ V, decodesTo ctx.iv V → ctr aes ctx w = ⟨xorKeyStream (aes K) V w.input, .ok⟩) ∧
      (¬ wellFormedHex ctx.iv → ∃ e, ctr aes ctx w = ⟨[], .error e⟩) ∧
      (wellFormedHex ctx.iv → ctx.iv.length < 32 → ctr aes ctx w = ⟨[], .fatal⟩)) := by
  refine ⟨decodesTo_iff _ hkl, fun K hK => prepare_ok ctx w K hf hK, ?_,
    decodesTo_iff _ hvl, ?_⟩
  · intro hno
    obtain ⟨h1, h2, h3, h4⟩ := hf
    by_cases hne : ctx.key = []
    · exact ⟨.missingParameters, by simp [prepare, hne]⟩
    · by_cases hw : wellFormedHex ctx.key
      · have hlt : ctx.key.length < 32 := by
          rcases Nat.lt_or_ge ctx.key.length 32 with h | h
          · exact h
          · exact absurd ((decodesTo_iff _ hkl).mpr ⟨hw, by omega⟩) hno
        obtain ⟨d, n, hd, hn⟩ := hexDecode_short _ hw hlt
        exact ⟨.keyLength, by simp [prepare, h1, h2, h3, h4, hne, hd, hn]⟩
      · obtain ⟨e, he⟩ := hexDecode_malformed _ hw hkl
        exact ⟨e, by simp [prepare, h1, h2, h3, h4, hne, he]⟩
  · intro K hK hne
    refine ⟨fun V hV => ctr_explicit aes ctx w K V hf hK hV, ?_, ?_⟩
    · exact fun hw => ctr_explicit_malformed aes ctx w K hf hK hne hw hvl
    · exact fun hw hlt => ctr_explicit_short aes ctx w K hf hK hne hw hlt

/-! ## Tampering with the output of `Seal` -/

/-- With command `decrypt`, on the output of `Seal` with its 16 tag bytes
replaced by other bytes, `gcm` returns the error of `Open` and writes nothing,
whatever the block cipher. -/
theorem gcm_decrypt_tampered_tag (aes : Bytes → Nat → Nat) (ctx : Context) (w : World)
    (K N P sealed T : Bytes) (hf : filesOk ctx w) (hk : decodesTo ctx.key K)
    (hc : ctx.command = "decrypt") (hN : N.length = 12)
    (hs : gcmSeal (aes K) N P [] = some sealed) (hT : T.length = 16)
    (hne : T ≠ sealed.drop P.length) (hin : w.input = N ++ (sealed.take P.length ++ T)) :
    gcm aes ctx w = ⟨[], .error .gcmOpen⟩ := by
  have hlen := gcmSeal_length _ _ _ _ _ hs
  have hP : P.length ≤ gcmMaxPlaintext := by
    unfold gcmSeal at hs
    split at hs
    · simp at hs
    · split at hs
      · simp at hs
      · omega
  rw [gcmSeal_eq (aes K) N P [] hN hP] at hs
  simp only [Option.some.injEq] at hs
  have hX : (gcmCounterCrypt (aes K) (gcmInc32 (gcmDeriveCounter N)) P).length = P.length := by
    simp [gcmCounterCrypt, length_xorStream]
  have htake : List.take P.length sealed =
      gcmCounterCrypt (aes K) (gcmInc32 (gcmDeriveCounter N)) P := by
    rw [← hs, List.take_append_of_le_length (by omega), List.take_of_length_le (by omega)]
  have hdrop : List.drop P.length sealed =
      gcmAuth (aes K) (gcmCounterCrypt (aes K) (gcmInc32 (gcmDeriveCounter N)) P) []
        (aes K (gcmDeriveCounter N)) := by
    rw [← hs, List.drop_append_of_le_length (by omega), List.drop_of_length_le (by omega)]
    simp
  rw [gcm_decrypt aes ctx w K N _ hf hk hc hN hin]
  have hl : (List.take P.length sealed ++ T).length = P.length + 16 := by
    simp [hT, hlen]
  have h16 : ¬ (List.take P.length sealed ++ T).length < gcmTagSize := by
    rw [hl]; simp [gcmTagSize]
  have hmax : ¬ (List.take P.length sealed ++ T).length > gcmMaxPlaintext + gcmTagSize := by
    rw [hl]; simp only [gcmTagSize]; omega
  have e1 : (List.take P.length sealed ++ T).length - gcmTagSize = P.length := by
    rw [hl]; simp [gcmTagSize]
  have e2 : List.take P.length (List.take P.length sealed ++ T) = List.take P.length sealed := by
    rw [List.take_append_of_le_length (by simp [hlen]), List.take_take, Nat.min_self]
  have e3 : List.drop P.length (List.take P.length sealed ++ T) = T := by
    rw [List.drop_append_of_le_length (by simp [hlen]),
      List.drop_of_length_le (by simp)]
    simp
  rw [hdrop] at hne
  have hopen : gcmOpen (aes K) N (List.take P.length sealed ++ T) [] = .errOpen := by
    unfold gcmOpen
    simp only [hN, gcmNonceSize, ne_eq, not_true_eq_false, if_false, h16, hmax, e1, e2, e3]
    rw [htake, if_pos (Ne.symm hne)]
  rw [hopen]

/-- A block is its first 15 bytes followed by its least significant byte. -/
theorem blockBytes_last (x : Nat) :
    blockBytes x = ((List.range 15).map fun j => x / 256 ^ (15 - j) % 256) ++ [x % 256] := by
  unfold blockBytes
  rw [List.range_succ, List.map_append]
  simp

/-- With command `decrypt`, on the output of `Seal` with its last byte
incremented by 1, `gcm` returns the error of `Open` and writes nothing,
whatever the block cipher. -/
theorem gcm_decrypt_last_byte_incremented (aes : Bytes → Nat → Nat) (ctx : Context)
    (w : World) (K N P sealed : Bytes) (hf : filesOk ctx w) (hk : decodesTo ctx.key K)
    (hc : ctx.command = "decrypt") (hN : N.length = 12)
    (hs : gcmSeal (aes K) N P [] = some sealed)
    (hin : w.input = N ++ (sealed.dropLast ++ [(sealed.getLastD 0 + 1) % 256])) :
    gcm aes ctx w = ⟨[], .error .gcmOpen⟩ := by
  have hP : P.length ≤ gcmMaxPlaintext := by
    unfold gcmSeal at hs
    split at hs
    · simp at hs
    · split at hs
      · simp at hs
      · omega
  have hs2 := hs
  rw [gcmSeal_eq (aes K) N P [] hN hP] at hs2
  simp only [Option.some.injEq, gcmAuth] at hs2
  rw [blockBytes_last, ← List.append_assoc] at hs2
  have hX : (gcmCounterCrypt (aes K) (gcmInc32 (gcmDeriveCounter N)) P).length = P.length := by
    simp [gcmCounterCrypt, length_xorStream]
  generalize hA : (List.map _ (List.range 15)) = A at hs2
  have hAl : A.length = 15 := by rw [← hA]; simp
  generalize hl : (_ ^^^ _) % 256 = l at hs2
  have hl256 : l < 256 := by rw [← hl]; exact Nat.mod_lt _ (by decide)
  have htake : sealed.take P.length
      = gcmCounterCrypt (aes K) (gcmInc32 (gcmDeriveCounter N)) P := by
    rw [← hs2, List.append_assoc, List.take_append_of_le_length (by omega),
      List.take_of_length_le (by omega)]
  have hdrop : sealed.drop P.length = A ++ [l] := by
    rw [← hs2, List.append_assoc, List.drop_append_of_le_length (by omega),
      List.drop_of_length_le (by omega)]
    simp
  have hdl : sealed.dropLast = sealed.take P.length ++ A := by
    rw [htake, ← hs2, List.dropLast_concat]
  have hgl : sealed.getLastD 0 = l := by
    rw [← hs2]; simp
  apply gcm_decrypt_tampered_tag aes ctx w K N P sealed (A ++ [(l + 1) % 256]) hf hk hc hN hs
  · simp [hAl]
  · rw [hdrop]
    intro h
    have := List.append_cancel_left h
    simp only [List.cons.injEq, and_true] at this
    omega
  · rw [hin, hdl, hgl, List.append_assoc]

set_option maxRecDepth 1000000

/-- Under a block function that is zero everywhere the hash key is zero and a
changed ciphertext byte goes unnoticed: `Open` accepts it and `gcm` writes the
changed plaintext. -/
theorem gcm_zero_hash_key_accepts_change :
    gcm (fun _ _ => 0) (sampleContext "encrypt" [] false false)
        (sampleWorld [0] (List.replicate 12 0))
      = ⟨List.replicate 12 0 ++ [0] ++ List.replicate 16 0, .ok⟩ ∧
    gcm (fun _ _ => 0) (sampleContext "decrypt" [] false false)
        (sampleWorld (List.replicate 12 0 ++ [1] ++ List.replicate 16 0) [])
      = ⟨[1], .ok⟩ := by
  decide

/-! ## The theorems at sample inputs -/

/-- C1 at the key and IV text of 32 zeros and the input `Hi`. -/
theorem ctr_round_trip_witness :
    decodesTo zeroText (List.replicate 16 0) ∧
    ctr sampleCipher (sampleContext "ctr" zeroText false false)
      (sampleWorld
        (ctr sampleCipher (sampleContext "ctr" zeroText false false)
          (sampleWorld [72, 105] [])).written [])
      = ⟨[72, 105], .ok⟩ :=
  ⟨by decide,
   ctr_round_trip sampleCipher (sampleContext "ctr" zeroText false false) _
    (sampleWorld [72, 105] []) _ (List.replicate 16 0) (List.replicate 16 0)
    (sample_filesOk _ _ _ _ _ _) (sample_key _ _ _ _) (by decide)
    (sample_filesOk _ _ _ _ _ _) (sample_key _ _ _ _) (by decide) rfl⟩

/-- C2 at the key and IV text of 32 zeros and the empty input. -/
theorem ctr_length_witness :
    (ctr sampleCipher (sampleContext "ctr" zeroText false false) (sampleWorld [] [])).exit = .ok ∧
    (ctr sampleCipher (sampleContext "ctr" zeroText false false)
      (sampleWorld [] [])).written.length = 0 ∧
    ((sampleWorld [] []).input = [] →
      (ctr sampleCipher (sampleContext "ctr" zeroText false false)
        (sampleWorld [] [])).written = []) :=
  ctr_length sampleCipher (sampleContext "ctr" zeroText false false) (sampleWorld [] [])
    (List.replicate 16 0) (List.replicate 16 0)
    (sample_filesOk _ _ _ _ _ _) (sample_key _ _ _ _) (by decide)

/-- C3 at the key text of 32 zeros, the input `Hi` and the random bytes
`0 .. 15`. -/
theorem ctr_implicit_round_trip_witness :
    ctr sampleCipher (sampleContext "ctr" [] true false) (sampleWorld [72, 105] (List.range 16))
      = ⟨List.range 16 ++ xorKeyStream (sampleCipher (List.replicate 16 0)) (List.range 16)
          [72, 105], .ok⟩ ∧
    (ctr sampleCipher (sampleContext "ctr" [] true false)
      (sampleWorld [72, 105] (List.range 16))).written.length = 2 + 16 ∧
    ctr sampleCipher (sampleContext "ctr" [] false true)
      (sampleWorld
        (ctr sampleCipher (sampleContext "ctr" [] true false)
          (sampleWorld [72, 105] (List.range 16))).written [])
      = ⟨[72, 105], .ok⟩ :=
  ctr_implicit_round_trip sampleCipher (sampleContext "ctr" [] true false)
    (sampleContext "ctr" [] false true) (sampleWorld [72, 105] (List.range 16)) _
    (List.replicate 16 0) (List.range 16)
    (sample_filesOk _ _ _ _ _ _) (sample_key _ _ _ _) rfl rfl rfl (by decide) (by decide)
    (sample_filesOk _ _ _ _ _ _) (sample_key _ _ _ _) rfl rfl rfl

/-- C4 at the key text of 32 zeros, the input `Hi` and the random bytes
`0 .. 11`. -/
theorem gcm_round_trip_witness :
    (sampleWorld [72, 105] (List.range 12)).input.length ≤ gcmMaxPlaintext ∧
    gcm sampleCipher (sampleContext "decrypt" [] false false)
      (sampleWorld
        (gcm sampleCipher (sampleContext "encrypt" [] false false)
          (sampleWorld [72, 105] (List.range 12))).written [])
      = ⟨[72, 105], .ok⟩ :=
  ⟨by decide,
   gcm_round_trip sampleCipher (sampleContext "encrypt" [] false false)
    (sampleContext "decrypt" [] false false) (sampleWorld [72, 105] (List.range 12)) _
    (List.replicate 16 0) (List.range 12)
    (sample_filesOk _ _ _ _ _ _) (sample_key _ _ _ _) rfl (by decide) (by decide) (by decide)
    (sample_filesOk _ _ _ _ _ _) (sample_key _ _ _ _) rfl rfl⟩

/-- C10 at the key text of 32 zeros, the input `Hi` and the random bytes
`0 .. 11`. -/
theorem gcm_layout_witness :
    ∃ sealed, gcmSeal (sampleCipher (List.replicate 16 0)) (List.range 12) [72, 105] []
        = some sealed ∧
      gcm sampleCipher (sampleContext "encrypt" [] false false)
        (sampleWorld [72, 105] (List.range 12)) = ⟨List.range 12 ++ sealed, .ok⟩ ∧
      (gcm sampleCipher (sampleContext "encrypt" [] false false)
        (sampleWorld [72, 105] (List.range 12))).written.length = 12 + 2 + 16 :=
  gcm_layout sampleCipher (sampleContext "encrypt" [] false false)
    (sampleWorld [72, 105] (List.range 12)) (List.replicate 16 0) (List.range 12)
    (sample_filesOk _ _ _ _ _ _) (sample_key _ _ _ _) rfl (by decide) (by decide) (by decide)

/-- C6 at the key text of 32 zeros and an input of five bytes with room for
sixteen behind it. -/
theorem ctr_implicit_decrypt_short_input_witness :
    (World.mk true true [1, 2, 3, 4, 5] (List.replicate 507 0) []).input.length < 16 ∧
    ctr sampleCipher (sampleContext "ctr" [] false true)
      (World.mk true true [1, 2, 3, 4, 5] (List.replicate 507 0) []) = ⟨[], .panic⟩ :=
  ⟨by decide,
   ctr_implicit_decrypt_short_input sampleCipher (sampleContext "ctr" [] false true)
    (World.mk true true [1, 2, 3, 4, 5] (List.replicate 507 0) []) (List.replicate 16 0)
    (by simp [filesOk, sampleContext]) (sample_key _ _ _ _) rfl rfl (by decide)⟩

/-- C7 at the key text of 32 zeros and an input of 27 bytes. -/
theorem gcm_decrypt_short_input_witness :
    12 ≤ (sampleWorld (List.range 27) []).input.length ∧
    (sampleWorld (List.range 27) []).input.length < 28 ∧
    gcm sampleCipher (sampleContext "decrypt" [] false false) (sampleWorld (List.range 27) [])
      = ⟨[], .error .gcmOpen⟩ :=
  ⟨by decide, by decide,
   gcm_decrypt_short_input sampleCipher (sampleContext "decrypt" [] false false)
    (sampleWorld (List.range 27) []) (List.replicate 16 0)
    (sample_filesOk _ _ _ _ _ _) (sample_key _ _ _ _) rfl (by decide) (by decide)⟩

/-- C8 at a command line with an explicit IV and both implicit flags. -/
theorem ctr_first_source_only_witness :
    1 < ivSources (sampleContext "ctr" zeroText true true) ∧
    ctr sampleCipher (sampleContext "ctr" zeroText true true) (sampleWorld [72, 105] [])
      = ctr sampleCipher (firstSourceOnly (sampleContext "ctr" zeroText true true))
          (sampleWorld [72, 105] []) ∧
    ivSources (firstSourceOnly (sampleContext "ctr" zeroText true true)) = 1 :=
  ⟨by decide,
   ctr_first_source_only sampleCipher (sampleContext "ctr" zeroText true true)
    (sampleWorld [72, 105] []) (by decide)⟩

/-- C9 at the key text of 32 zeros and the IV text `0g`. -/
theorem key_iv_validation_witness :
    ¬ wellFormedHex [48, 103] ∧
    ∃ e, ctr sampleCipher (sampleContext "ctr" [48, 103] false false) (sampleWorld [72, 105] [])
      = ⟨[], .error e⟩ :=
  ⟨by decide,
   ((key_iv_validation sampleCipher (sampleContext "ctr" [48, 103] false false)
      (sampleWorld [72, 105] []) (sample_filesOk _ _ _ _ _ _) (by decide)
      (by decide)).2.2.2.2 (List.replicate 16 0) (sample_key _ _ _ _) (by decide)).2.1
    (by decide)⟩

end Pscrypt
